import Mathlib

set_option autoImplicit false

/-!
Shallow embedding of the R3 stretcher engine (src/src/finer/R3StretcherImpl.cpp):
the hop calculator, the per-channel ring queues, the public buffer operations
(process / available / retrieve), the analysis, band-gating and mixdown phases of
the consume loop, and the draining flag as a state machine over the public API.
Samples are modelled as rationals; machine floats carry exact rational values in
all the structural properties proved here.
-/

/-- Modelled from the spec: the ring queue collaborator (section 6 capability set:
occupancy queries, bulk write, bulk destructive read, peek, skip, resize).
Contents are kept as a list, most recent at the tail; occupancy is the length. -/
structure RingBuf where
  size : ℕ
  buf : List ℚ
deriving DecidableEq

namespace RingBuf

/-- Modelled from the spec: occupancy (read space) query. -/
def getReadSpace (b : RingBuf) : ℕ := b.buf.length

/-- Modelled from the spec: write space query (capacity minus occupancy). -/
def getWriteSpace (b : RingBuf) : ℕ := b.size - b.buf.length

/-- Modelled from the spec: capacity query. -/
def getSize (b : RingBuf) : ℕ := b.size

/-- Modelled from the spec: bulk write appends up to the available write space and
returns the count actually written. -/
def write (b : RingBuf) (xs : List ℚ) : RingBuf × ℕ :=
  let n := min xs.length (b.size - b.buf.length)
  (⟨b.size, b.buf ++ xs.take n⟩, n)

/-- Modelled from the spec: bulk destructive read of up to n samples, returning the
samples read. -/
def read (b : RingBuf) (n : ℕ) : RingBuf × List ℚ :=
  (⟨b.size, b.buf.drop n⟩, b.buf.take n)

/-- Modelled from the spec: non-destructive peek of n samples. -/
def peek (b : RingBuf) (n : ℕ) : List ℚ := b.buf.take n

/-- Modelled from the spec: skip-without-copy of n samples. -/
def skip (b : RingBuf) (n : ℕ) : RingBuf := ⟨b.size, b.buf.drop n⟩

/-- Modelled from the spec: in-place resize preserving buffered contents up to the
new capacity. -/
def resized (b : RingBuf) (newSize : ℕ) : RingBuf := ⟨newSize, b.buf.take newSize⟩

end RingBuf

/-- R3StretcherImpl::calculateHop (lines 44-67): from the effective ratio, the
nominal input hop against the fixed proposed output hop of 256.  The logger call
in the clamp branch is modelled as the Boolean component of the result. -/
def calculateHop (rt : ℚ) : ℤ × Bool :=
  if 1 < rt then
    let ih := 256 / rt
    if ih < 1 then (1, true) else (round ih, false)
  else
    (round (min (256 / rt) 340), false)

/-- The C2 claim as stated: hop value round(256/rt) clamped to at least 1 for
rt > 1, with the degraded-precision warning emitted exactly when the clamping
applies, that is when round(256/rt) falls below 1; for rt ≤ 1 the hop is
round(min(256/rt, 340)) with no warning. -/
def hopClaimSpec (rt : ℚ) : Prop :=
  (1 < rt → (calculateHop rt).1 = max 1 (round ((256 : ℚ) / rt)) ∧
      ((calculateHop rt).2 = true ↔ round ((256 : ℚ) / rt) < 1)) ∧
  (rt ≤ 1 → calculateHop rt = (round (min ((256 : ℚ) / rt) 340), false))

/-- R3StretcherImpl::available (lines 143-150): the read space of the output
queue, or the sentinel −1 when that is zero and draining is active. -/
def available (draining : Bool) (outbuf : RingBuf) : ℤ :=
  let av : ℤ := (RingBuf.getReadSpace outbuf : ℤ)
  if av = 0 ∧ draining = true then -1 else av

/-- C2: counterexample — at effective ratio 400 the code emits the warning
(256/400 = 16/25 < 1 triggers the clamp branch) although round(256/400) = 1 is
not below 1, so the claim's warning condition fails there. -/
theorem c2_calculate_hop_counterexample : ¬ hopClaimSpec 400 := by
  intro h
  have h2 := (h.1 (by norm_num)).2
  have hw : (calculateHop 400).2 = true := by
    unfold calculateHop
    norm_num
  have h3 := h2.mp hw
  have h4 : round ((256 : ℚ) / 400) = 1 := by
    rw [round_eq]
    norm_num
  omega

/-- C2 amended: for ratio > 1 the nominal input hop equals round(256/ratio)
clamped to at least 1, and the degraded-precision warning is emitted exactly when
the ideal unrounded hop 256/ratio falls below 1 (which also covers ratios whose
hop would round to exactly 1); for ratio ≤ 1 the hop is round(min(256/ratio, 340))
with no warning. -/
theorem c2_calculate_hop_amended (rt : ℚ) :
    (1 < rt → (calculateHop rt).1 = max 1 (round ((256 : ℚ) / rt)) ∧
        ((calculateHop rt).2 = true ↔ (256 : ℚ) / rt < 1)) ∧
    (rt ≤ 1 → calculateHop rt = (round (min ((256 : ℚ) / rt) 340), false)) := by
  constructor
  · intro h1
    unfold calculateHop
    rw [if_pos h1]
    by_cases hlt : (256 : ℚ) / rt < 1
    · rw [if_pos hlt]
      refine ⟨?_, by simp [hlt]⟩
      have hub : round ((256 : ℚ) / rt) ≤ 1 := by
        rw [round_eq]
        have h2 : ⌊(256 : ℚ) / rt + 1 / 2⌋ < 2 := by
          rw [Int.floor_lt]
          push_cast
          linarith
        omega
      simp [max_eq_left hub]
    · rw [if_neg hlt]
      push_neg at hlt
      refine ⟨?_, by simp [not_lt.mpr hlt]⟩
      have hlb : 1 ≤ round ((256 : ℚ) / rt) := by
        rw [round_eq, Int.le_floor]
        push_cast
        linarith
      simp [max_eq_right hlb]
  · intro h1
    unfold calculateHop
    rw [if_neg (not_lt.mpr h1)]

/-- C2 amended, witness at effective ratio 512: hop 1 with the warning set. -/
theorem c2_calculate_hop_amended_witness :
    (calculateHop 512).1 = max 1 (round ((256 : ℚ) / 512)) ∧
      ((calculateHop 512).2 = true ↔ (256 : ℚ) / 512 < 1) :=
  (c2_calculate_hop_amended 512).1 (by norm_num)

/-- C3: available returns −1 exactly when draining is active and the output
occupancy is 0; in every other state it returns the occupancy, which is ≥ 0. -/
theorem c3_available_sentinel (d : Bool) (b : RingBuf) :
    (available d b = -1 ↔ (d = true ∧ RingBuf.getReadSpace b = 0)) ∧
    (¬ (d = true ∧ RingBuf.getReadSpace b = 0) →
      available d b = (RingBuf.getReadSpace b : ℤ) ∧ 0 ≤ available d b) := by
  unfold available
  by_cases hc : ((RingBuf.getReadSpace b : ℤ) = 0 ∧ d = true)
  · rw [if_pos hc]
    have h0 : RingBuf.getReadSpace b = 0 := by exact_mod_cast hc.1
    simp [h0, hc.2]
  · rw [if_neg hc]
    constructor
    · constructor
      · intro hav
        exfalso
        have : (0 : ℤ) ≤ (RingBuf.getReadSpace b : ℤ) := Int.natCast_nonneg _
        omega
      · intro hdr
        exact absurd ⟨by exact_mod_cast hdr.2, hdr.1⟩ hc
    · intro _
      exact ⟨rfl, Int.natCast_nonneg _⟩

/-- C3, witness: a non-draining state with occupancy 3 reports 3. -/
theorem c3_available_sentinel_witness :
    available false ⟨8, [1, 2, 3]⟩ = (RingBuf.getReadSpace ⟨8, [1, 2, 3]⟩ : ℤ) ∧
      0 ≤ available false ⟨8, [1, 2, 3]⟩ :=
  (c3_available_sentinel false ⟨8, [1, 2, 3]⟩).2 (by decide)

/-- R3StretcherImpl::retrieve (lines 152-169), one step per channel: read up to
the running count from this channel's output queue, and when the channel yields
fewer samples, warn (only for channels after the first) and lower the running
count.  Returns the updated queues, the per-channel read counts, the final count
and whether a channel-imbalance warning was logged. -/
def retrieveLoop : List RingBuf → ℕ → Bool → List RingBuf × List ℕ × ℕ × Bool
  | [], got, _ => ([], [], got, false)
  | b :: rest, got, later =>
    let p := RingBuf.read b got
    let gotHere := p.2.length
    let r := retrieveLoop rest gotHere true
    (p.1 :: r.1, gotHere :: r.2.1, r.2.2.1, (later && decide (gotHere < got)) || r.2.2.2)

/-- R3StretcherImpl::retrieve over all channels, starting from the requested
sample count with the first channel exempt from the imbalance warning. -/
def retrieveModel (bufs : List RingBuf) (n : ℕ) : List RingBuf × List ℕ × ℕ × Bool :=
  retrieveLoop bufs n false

/-- The number of samples a single ring-queue read yields is the smaller of the
request and the occupancy. -/
theorem read_snd_length (b : RingBuf) (n : ℕ) :
    (RingBuf.read b n).2.length = min n (RingBuf.getReadSpace b) := by
  simp [RingBuf.read, RingBuf.getReadSpace]

/-- The final count of the retrieve loop folds min over the channel occupancies. -/
theorem retrieveLoop_final_eq (bufs : List RingBuf) : ∀ (got : ℕ) (later : Bool),
    (retrieveLoop bufs got later).2.2.1 = (bufs.map RingBuf.getReadSpace).foldl min got := by
  induction bufs with
  | nil => intro got later; rfl
  | cons b rest ih =>
    intro got later
    simp only [retrieveLoop, List.map_cons, List.foldl_cons, read_snd_length]
    exact ih _ _

/-- The final count of the retrieve loop never exceeds the starting count. -/
theorem retrieveLoop_final_le (bufs : List RingBuf) : ∀ (got : ℕ) (later : Bool),
    (retrieveLoop bufs got later).2.2.1 ≤ got := by
  induction bufs with
  | nil => intro got later; exact le_refl got
  | cons b rest ih =>
    intro got later
    simp only [retrieveLoop, read_snd_length]
    exact le_trans (ih _ _) (min_le_left _ _)

/-- With the first-channel exemption already spent, the loop warns exactly when
its final count drops strictly below the count it was entered with. -/
theorem retrieveLoop_warn_iff (bufs : List RingBuf) : ∀ (got : ℕ),
    ((retrieveLoop bufs got true).2.2.2 = true ↔ (retrieveLoop bufs got true).2.2.1 < got) := by
  induction bufs with
  | nil =>
    intro got
    simp [retrieveLoop]
  | cons b rest ih =>
    intro got
    simp only [retrieveLoop, read_snd_length, Bool.true_and, Bool.or_eq_true, decide_eq_true_eq]
    rw [ih]
    constructor
    · intro h
      rcases h with h | h
      · exact lt_of_le_of_lt (retrieveLoop_final_le rest _ true) h
      · exact lt_of_lt_of_le h (min_le_left _ _)
    · intro h
      by_cases hm : min got (RingBuf.getReadSpace b) < got
      · exact Or.inl hm
      · right
        push_neg at hm
        have hmeq : min got (RingBuf.getReadSpace b) = got := le_antisymm (min_le_left _ _) hm
        exact lt_of_lt_of_le h (le_of_eq hmeq.symm)

/-- Per-channel read counts of the retrieve loop: entry c is the prefix minimum
of the starting count and the occupancies of channels 0..c. -/
theorem retrieveLoop_counts (bufs : List RingBuf) : ∀ (got : ℕ) (later : Bool) (c : ℕ),
    c < bufs.length →
    ((retrieveLoop bufs got later).2.1).getD c 0 =
      ((bufs.map RingBuf.getReadSpace).take (c + 1)).foldl min got := by
  induction bufs with
  | nil =>
    intro got later c hc
    exact absurd hc (by simp)
  | cons b rest ih =>
    intro got later c hc
    cases c with
    | zero =>
      simp [retrieveLoop, read_snd_length]
    | succ c =>
      simp only [retrieveLoop, read_snd_length, List.map_cons, List.take_succ_cons,
        List.foldl_cons, List.getD_cons_succ]
      exact ih _ true c (by simpa using hc)

/-- Occupancies left behind by the retrieve loop: channel c keeps its old
occupancy minus the count it was read at. -/
theorem retrieveLoop_occupancy (bufs : List RingBuf) : ∀ (got : ℕ) (later : Bool) (c : ℕ),
    c < bufs.length →
    RingBuf.getReadSpace (((retrieveLoop bufs got later).1).getD c ⟨0, []⟩) =
      RingBuf.getReadSpace (bufs.getD c ⟨0, []⟩) -
        ((retrieveLoop bufs got later).2.1).getD c 0 := by
  induction bufs with
  | nil =>
    intro got later c hc
    exact absurd hc (by simp)
  | cons b rest ih =>
    intro got later c hc
    cases c with
    | zero =>
      simp only [retrieveLoop, List.getD_cons_zero, read_snd_length]
      simp [RingBuf.read, RingBuf.getReadSpace]
      omega
    | succ c =>
      simp only [retrieveLoop, List.getD_cons_succ]
      exact ih _ true c (by simpa using hc)

/-- Folding min cannot exceed its starting value. -/
theorem foldl_min_le_init (l : List ℕ) : ∀ (m : ℕ), l.foldl min m ≤ m := by
  induction l with
  | nil => intro m; exact le_refl m
  | cons x t ih =>
    intro m
    exact le_trans (ih (min m x)) (min_le_left _ _)

/-- Folding min is bounded by every element of the list. -/
theorem foldl_min_le_mem (l : List ℕ) : ∀ (m a : ℕ), a ∈ l → l.foldl min m ≤ a := by
  induction l with
  | nil =>
    intro m a ha
    exact absurd ha (by simp)
  | cons x t ih =>
    intro m a ha
    rcases List.mem_cons.mp ha with h | h
    · subst h
      exact le_trans (foldl_min_le_init t (min m a)) (min_le_right _ _)
    · exact ih (min m x) a h

/-- C10: for every retrieve call on channels with occupancies o_0, …, o_{k−1},
the number of samples destructively read from (and written for) channel c equals
the running prefix minimum min(n, o_0, …, o_c) — not the global minimum — and
channel c's output queue is left with its old occupancy minus that prefix
minimum, so channels can be left with unequal remaining occupancies. -/
theorem c10_retrieve_prefix_min (bufs : List RingBuf) (n c : ℕ) (hc : c < bufs.length) :
    ((retrieveModel bufs n).2.1).getD c 0 =
      ((bufs.map RingBuf.getReadSpace).take (c + 1)).foldl min n ∧
    RingBuf.getReadSpace (((retrieveModel bufs n).1).getD c ⟨0, []⟩) =
      RingBuf.getReadSpace (bufs.getD c ⟨0, []⟩) -
        ((bufs.map RingBuf.getReadSpace).take (c + 1)).foldl min n := by
  have h1 := retrieveLoop_counts bufs n false c hc
  have h2 := retrieveLoop_occupancy bufs n false c hc
  exact ⟨h1, by rw [retrieveModel, h2, h1]⟩

/-- C10, witness: two channels holding 5 and 3 samples, asked for 4: channel 0
is read at 4 while the later channel is read at 3, leaving occupancies 1 and 0. -/
theorem c10_retrieve_prefix_min_witness :
    ((retrieveModel [⟨8, [1, 2, 3, 4, 5]⟩, ⟨8, [1, 2, 3]⟩] 4).2.1).getD 0 0 =
      (([(⟨8, [1, 2, 3, 4, 5]⟩ : RingBuf), ⟨8, [1, 2, 3]⟩].map
        RingBuf.getReadSpace).take 1).foldl min 4 ∧
    RingBuf.getReadSpace
        (((retrieveModel [⟨8, [1, 2, 3, 4, 5]⟩, ⟨8, [1, 2, 3]⟩] 4).1).getD 0 ⟨0, []⟩) =
      RingBuf.getReadSpace (([(⟨8, [1, 2, 3, 4, 5]⟩ : RingBuf),
          ⟨8, [1, 2, 3]⟩]).getD 0 ⟨0, []⟩) -
        (([(⟨8, [1, 2, 3, 4, 5]⟩ : RingBuf), ⟨8, [1, 2, 3]⟩].map
          RingBuf.getReadSpace).take 1).foldl min 4 :=
  c10_retrieve_prefix_min [⟨8, [1, 2, 3, 4, 5]⟩, ⟨8, [1, 2, 3]⟩] 4 0 (by norm_num)

/-- The C4 claim as stated: the returned count is at most the min-fold of the
occupancies; every channel is read at exactly the returned count (all channels
truncated to the shortest, no mismatched lengths); and whenever two channels
disagree on occupancy a warning is logged. -/
def retrieveClaimSpec (bufs : List RingBuf) (n : ℕ) : Prop :=
  (retrieveModel bufs n).2.2.1 ≤ (bufs.map RingBuf.getReadSpace).foldl min n ∧
  (∀ c, c < bufs.length →
    ((retrieveModel bufs n).2.1).getD c 0 = (retrieveModel bufs n).2.2.1) ∧
  ((∃ c1, c1 < bufs.length ∧ ∃ c2, c2 < bufs.length ∧
      RingBuf.getReadSpace (bufs.getD c1 ⟨0, []⟩) ≠
        RingBuf.getReadSpace (bufs.getD c2 ⟨0, []⟩)) →
    (retrieveModel bufs n).2.2.2 = true)

/-- C4: counterexample — channels holding 5 and 3 samples, asked for 10: the
call returns 3 but channel 0 was destructively read at 5 samples, so the
channels were not all truncated to the shortest. -/
theorem c4_retrieve_counterexample :
    ¬ retrieveClaimSpec [⟨8, [1, 2, 3, 4, 5]⟩, ⟨8, [1, 2, 3]⟩] 10 := by
  intro h
  have h2 := h.2.1 0 (by norm_num)
  simp [retrieveModel, retrieveLoop, RingBuf.read, RingBuf.getReadSpace] at h2

/-- C4 amended: the returned count equals (hence is at most) the minimum of the
request and all channel occupancies; a warning is logged exactly when some
channel after the first yields fewer samples than the running count, i.e. when
the final count is below min(n, occupancy of channel 0); but only the returned
count is common — an earlier channel may already have consumed and written more
samples than the returned count. -/
theorem c4_retrieve_amended (b0 : RingBuf) (rest : List RingBuf) (n : ℕ) :
    (retrieveModel (b0 :: rest) n).2.2.1 =
      ((b0 :: rest).map RingBuf.getReadSpace).foldl min n ∧
    (retrieveModel (b0 :: rest) n).2.2.1 ≤ n ∧
    (∀ b ∈ (b0 :: rest), (retrieveModel (b0 :: rest) n).2.2.1 ≤ RingBuf.getReadSpace b) ∧
    ((retrieveModel (b0 :: rest) n).2.2.2 = true ↔
      (retrieveModel (b0 :: rest) n).2.2.1 < min n (RingBuf.getReadSpace b0)) := by
  simp only [retrieveModel]
  refine ⟨retrieveLoop_final_eq _ n false, retrieveLoop_final_le _ n false, ?_, ?_⟩
  · intro b hb
    rw [retrieveLoop_final_eq _ n false]
    exact foldl_min_le_mem _ n _ (List.mem_map_of_mem RingBuf.getReadSpace hb)
  · simp only [retrieveLoop, read_snd_length, Bool.false_and, Bool.false_or]
    exact retrieveLoop_warn_iff rest (min n (RingBuf.getReadSpace b0))

/-- A ring-queue write whose payload fits in the write space appends it whole. -/
theorem write_append (b : RingBuf) (xs : List ℚ) (h : xs.length ≤ b.size - b.buf.length) :
    (RingBuf.write b xs).1 = ⟨b.size, b.buf ++ xs⟩ := by
  simp only [RingBuf.write]
  rw [min_eq_left h, List.take_length]

/-- Writing one block per channel appends each block to that channel's contents,
provided every channel has write space for the block size. -/
theorem mapBuf_zipWith_write (n : ℕ) : ∀ (l : List RingBuf) (inp : List (List ℚ)),
    (∀ b ∈ l, n ≤ b.size - b.buf.length) → (∀ xs ∈ inp, xs.length = n) →
    (List.zipWith (fun b xs => (RingBuf.write b (xs.take n)).1) l inp).map RingBuf.buf =
      List.zipWith (fun bb xs => bb ++ xs) (l.map RingBuf.buf) inp := by
  intro l
  induction l with
  | nil => intro inp _ _; simp
  | cons b t ih =>
    intro inp hsp hxs
    cases inp with
    | nil => simp
    | cons xs rest =>
      have hx : xs.length = n := hxs xs (List.mem_cons_self xs rest)
      have htake : xs.take n = xs := by rw [← hx]; exact List.take_length xs
      simp only [List.zipWith_cons_cons, List.map_cons]
      rw [htake, write_append b xs (by rw [hx]; exact hsp b (List.mem_cons_self b t))]
      exact congrArg (List.cons (b.buf ++ xs))
        (ih rest (fun b' hb' => hsp b' (List.mem_cons_of_mem b hb'))
          (fun xs' hx' => hxs xs' (List.mem_cons_of_mem xs hx')))

/-- Writing never changes any channel's capacity. -/
theorem mapSize_zipWith_write (n : ℕ) : ∀ (l : List RingBuf) (inp : List (List ℚ)),
    inp.length = l.length →
    (List.zipWith (fun b xs => (RingBuf.write b (xs.take n)).1) l inp).map RingBuf.size =
      l.map RingBuf.size := by
  intro l
  induction l with
  | nil => intro inp _; simp
  | cons b t ih =>
    intro inp hlen
    cases inp with
    | nil => exact absurd hlen (by simp)
    | cons xs rest =>
      simp only [List.zipWith_cons_cons, List.map_cons, RingBuf.write]
      exact congrArg (List.cons b.size) (ih rest (by simpa using hlen))

/-- R3StretcherImpl::process (lines 111-141), the input-append phase: when the
requested count exceeds channel 0's write space, warn and resize every channel's
input queue to channel 0's size minus its write space plus the count, then write
the count from each channel's block.  The logger call is modelled as the
Boolean component; process itself returns no failure signal. -/
def processAppend (n : ℕ) (input : List (List ℚ)) (chans : List RingBuf) :
    List RingBuf × Bool :=
  match chans with
  | [] => ([], false)
  | c0 :: _ =>
    let ws := RingBuf.getWriteSpace c0
    let newSize := RingBuf.getSize c0 - ws + n
    let chans2 := if ws < n then chans.map (fun b => RingBuf.resized b newSize) else chans
    (List.zipWith (fun b xs => (RingBuf.write b (xs.take n)).1) chans2 input,
     decide (ws < n))

/-- Unfolding of the append phase on a nonempty channel list. -/
theorem processAppend_cons (n : ℕ) (input : List (List ℚ)) (c0 : RingBuf)
    (rest : List RingBuf) :
    processAppend n input (c0 :: rest) =
      (List.zipWith (fun b xs => (RingBuf.write b (xs.take n)).1)
        (if RingBuf.getWriteSpace c0 < n
         then (c0 :: rest).map (fun b =>
            RingBuf.resized b (RingBuf.getSize c0 - RingBuf.getWriteSpace c0 + n))
         else c0 :: rest) input,
       decide (RingBuf.getWriteSpace c0 < n)) := rfl

/-- C7: process appends all n samples to every channel's input queue and drops
none; when n exceeds the current write space every channel is first resized to
its occupancy plus n and the warning is raised, and the warning is raised in
exactly that case. -/
theorem c7_process_append (n sz occ : ℕ) (input : List (List ℚ))
    (c0 : RingBuf) (rest : List RingBuf)
    (hsz : ∀ b ∈ c0 :: rest, RingBuf.getSize b = sz)
    (hocc : ∀ b ∈ c0 :: rest, RingBuf.getReadSpace b = occ)
    (hos : occ ≤ sz)
    (hlen : input.length = (c0 :: rest).length)
    (hxs : ∀ xs ∈ input, xs.length = n) :
    ((processAppend n input (c0 :: rest)).1).map RingBuf.buf =
      List.zipWith (fun bb xs => bb ++ xs) ((c0 :: rest).map RingBuf.buf) input ∧
    ((processAppend n input (c0 :: rest)).1).map RingBuf.size =
      List.replicate (c0 :: rest).length (if sz - occ < n then occ + n else sz) ∧
    ((processAppend n input (c0 :: rest)).2 = true ↔ sz - occ < n) := by
  have hs0 : c0.size = sz := hsz c0 (List.mem_cons_self c0 rest)
  have ho0 : c0.buf.length = occ := hocc c0 (List.mem_cons_self c0 rest)
  have hws : RingBuf.getWriteSpace c0 = sz - occ := by
    simp [RingBuf.getWriteSpace, hs0, ho0]
  have hgs : RingBuf.getSize c0 = sz := hs0
  rw [processAppend_cons, hws, hgs]
  by_cases hlt : sz - occ < n
  · rw [if_pos hlt, if_pos hlt]
    have hnew : sz - (sz - occ) + n = occ + n := by omega
    rw [hnew]
    have hmap : (c0 :: rest).map (fun b => RingBuf.resized b (occ + n)) =
        (c0 :: rest).map (fun (b : RingBuf) => (⟨occ + n, b.buf⟩ : RingBuf)) := by
      apply List.map_congr_left
      intro b hb
      have hob : b.buf.length = occ := hocc b hb
      have : b.buf.take (occ + n) = b.buf :=
        List.take_of_length_le (by rw [hob]; exact Nat.le_add_right occ n)
      simp [RingBuf.resized, this]
    rw [hmap]
    refine ⟨?_, ?_, by simp [hlt]⟩
    · rw [mapBuf_zipWith_write n _ input ?_ hxs]
      · have hbb : ((c0 :: rest).map
            (fun (b : RingBuf) => (⟨occ + n, b.buf⟩ : RingBuf))).map RingBuf.buf =
            (c0 :: rest).map RingBuf.buf := by
          rw [List.map_map]
          rfl
        rw [hbb]
      · intro b' hb'
        rcases List.mem_map.mp hb' with ⟨b, hb, hbeq⟩
        have hob : b.buf.length = occ := hocc b hb
        rw [← hbeq]
        simp [hob]
    · rw [mapSize_zipWith_write n _ input (by simpa using hlen)]
      rw [List.map_map]
      have hcomp : (RingBuf.size ∘ fun (b : RingBuf) => (⟨occ + n, b.buf⟩ : RingBuf)) =
          fun (_ : RingBuf) => occ + n := rfl
      rw [hcomp]
      simp [List.replicate_succ]
  · rw [if_neg hlt, if_neg hlt]
    push_neg at hlt
    refine ⟨?_, ?_, by simp⟩
    · rw [mapBuf_zipWith_write n _ input ?_ hxs]
      intro b hb
      have hob : b.buf.length = occ := hocc b hb
      have hsb : b.size = sz := hsz b hb
      rw [hob, hsb]
      exact hlt
    · rw [mapSize_zipWith_write n _ input hlen]
      have hmap2 : (c0 :: rest).map RingBuf.size = (c0 :: rest).map (fun _ => sz) :=
        List.map_congr_left (fun b hb => hsz b hb)
      rw [hmap2]
      simp [List.replicate_succ]

/-- C7, witness: two channels of capacity 3 holding one sample each, given three
samples apiece: the queues are grown to capacity 4 and everything is appended. -/
theorem c7_process_append_witness :
    ((processAppend 3 [[4, 5, 6], [7, 8, 9]] [⟨3, [1]⟩, ⟨3, [2]⟩]).1).map RingBuf.buf =
      List.zipWith (fun bb xs => bb ++ xs)
        ([(⟨3, [1]⟩ : RingBuf), ⟨3, [2]⟩].map RingBuf.buf) [[4, 5, 6], [7, 8, 9]] ∧
    ((processAppend 3 [[4, 5, 6], [7, 8, 9]] [⟨3, [1]⟩, ⟨3, [2]⟩]).1).map RingBuf.size =
      List.replicate ([(⟨3, [1]⟩ : RingBuf), ⟨3, [2]⟩]).length
        (if 3 - 1 < 3 then 1 + 3 else 3) ∧
    ((processAppend 3 [[4, 5, 6], [7, 8, 9]] [⟨3, [1]⟩, ⟨3, [2]⟩]).2 = true ↔ 3 - 1 < 3) :=
  c7_process_append 3 3 1 [[4, 5, 6], [7, 8, 9]] ⟨3, [1]⟩ [⟨3, [2]⟩]
    (by simp [RingBuf.getSize])
    (by simp [RingBuf.getReadSpace])
    (by norm_num)
    (by simp)
    (by simp)

/-- One public-API call of the stretcher.  procCall carries the final flag, the
sample count and the per-channel blocks; availableCall is an observer. -/
inductive ApiCall where
  | setTimeRat : ℚ → ApiCall
  | setPitchScale : ℚ → ApiCall
  | procCall : Bool → ℕ → List (List ℚ) → ApiCall
  | availableCall : ApiCall
  | retrieveCall : ℕ → ApiCall
  | resetCall : ApiCall

/-- Public state of the stretcher relevant to the draining lifecycle: the stored
ratios and nominal hop, the draining flag, and the channel queues. -/
structure StretcherSt where
  timeRat : ℚ
  pitchScale : ℚ
  inhop : ℤ
  draining : Bool
  inbufs : List RingBuf
  outbufs : List RingBuf

/-- Effect of each public call on the stretcher state, following
R3StretcherImpl: setTimeRatio/setPitchScale store the ratio and recompute the
hop (the effective ratio is modelled from the spec as the product of the two
ratios — getEffectiveRatio's body lives in the header, which is not under src);
process sets m_draining when final is passed (line 119, never cleared anywhere
else: consume only reads it at lines 188 and 193) and appends the input blocks;
available is const (lines 143-150); retrieve destructively reads the output
queues; reset's body is empty (lines 93-97) so it changes nothing. -/
def stepApi (s : StretcherSt) : ApiCall → StretcherSt
  | ApiCall.setTimeRat r =>
      { s with timeRat := r, inhop := (calculateHop (r * s.pitchScale)).1 }
  | ApiCall.setPitchScale p =>
      { s with pitchScale := p, inhop := (calculateHop (s.timeRat * p)).1 }
  | ApiCall.procCall final n input =>
      { s with draining := s.draining || final,
               inbufs := (processAppend n input s.inbufs).1 }
  | ApiCall.availableCall => s
  | ApiCall.retrieveCall n => { s with outbufs := (retrieveModel s.outbufs n).1 }
  | ApiCall.resetCall => s

/-- C8: once process is called with final = true the instance is draining for
the rest of its lifetime — after every subsequent sequence of public calls,
including process with final = false and the reference reset, the flag is still
set. -/
theorem c8_draining_one_way (s : StretcherSt) (n : ℕ) (input : List (List ℚ))
    (calls : List ApiCall) :
    ((ApiCall.procCall true n input :: calls).foldl stepApi s).draining = true := by
  have key : ∀ (t : List ApiCall) (s' : StretcherSt), s'.draining = true →
      (t.foldl stepApi s').draining = true := by
    intro t
    induction t with
    | nil => intro s' h; exact h
    | cons c t2 ih =>
      intro s' h
      apply ih
      cases c with
      | setTimeRat r => exact h
      | setPitchScale p => exact h
      | procCall f m inp => simp [stepApi, h]
      | availableCall => exact h
      | retrieveCall m => exact h
      | resetCall => exact h
  simp only [List.foldl_cons]
  apply key
  simp [stepApi]

/-- R3StretcherImpl::consume, accumulator shift (lines 338-340): drop the
emitted hop from the front and zero-fill the freed tail, keeping the length. -/
def shiftAcc (oh : ℕ) (acc : List ℚ) : List ℚ :=
  acc.drop oh ++ List.replicate (min oh acc.length) 0

/-- R3StretcherImpl::consume, mixdown (lines 333-337): zero the hop-sized
mixdown buffer, then add the leading hop of every resolution's accumulator. -/
def mixdownOf (oh : ℕ) (accs : List (List ℚ)) : List ℚ :=
  accs.foldl (fun m a => List.zipWith (· + ·) m (a.take oh)) (List.replicate oh 0)

/-- R3StretcherImpl::consume, per-channel emission (lines 333-343): mix the
accumulators down, shift each accumulator, write the mixdown to the output
queue and skip the input hop on the input queue. -/
def emitStep (oh ihop : ℕ) (accs : List (List ℚ)) (outb inb : RingBuf) :
    List (List ℚ) × RingBuf × RingBuf :=
  (accs.map (shiftAcc oh), (RingBuf.write outb (mixdownOf oh accs)).1,
   RingBuf.skip inb ihop)

/-- The running mixdown keeps the hop-sized length. -/
theorem mixdown_go_length (oh : ℕ) : ∀ (accs : List (List ℚ)) (init : List ℚ),
    init.length = oh → (∀ a ∈ accs, oh ≤ a.length) →
    (accs.foldl (fun m a => List.zipWith (· + ·) m (a.take oh)) init).length = oh := by
  intro accs
  induction accs with
  | nil => intro init hi _; exact hi
  | cons a t ih =>
    intro init hi ha
    simp only [List.foldl_cons]
    apply ih
    · have hal : oh ≤ a.length := ha a (List.mem_cons_self a t)
      simp [hi, hal]
    · intro a' ha'
      exact ha a' (List.mem_cons_of_mem a ha')

/-- Entry j of the running mixdown accumulates the j-th samples of all blocks. -/
theorem mixdown_go_getD (oh j : ℕ) (hj : j < oh) : ∀ (accs : List (List ℚ)) (init : List ℚ),
    init.length = oh → (∀ a ∈ accs, oh ≤ a.length) →
    (accs.foldl (fun m a => List.zipWith (· + ·) m (a.take oh)) init).getD j 0 =
      init.getD j 0 + (accs.map (fun a => a.getD j 0)).sum := by
  intro accs
  induction accs with
  | nil => intro init hi _; simp
  | cons a t ih =>
    intro init hi ha
    have hal : oh ≤ a.length := ha a (List.mem_cons_self a t)
    have hzl : (List.zipWith (· + ·) init (a.take oh)).length = oh := by
      simp [hi, hal]
    simp only [List.foldl_cons, List.map_cons, List.sum_cons]
    rw [ih (List.zipWith (· + ·) init (a.take oh)) hzl
      (fun a' ha' => ha a' (List.mem_cons_of_mem a ha'))]
    have hz : (List.zipWith (· + ·) init (a.take oh)).getD j 0 =
        init.getD j 0 + a.getD j 0 := by
      rw [List.getD_eq_getElem _ _ (by rw [hzl]; exact hj)]
      rw [List.getElem_zipWith]
      rw [List.getElem_take]
      rw [List.getD_eq_getElem init 0 (by rw [hi]; exact hj),
        List.getD_eq_getElem a 0 (by omega)]
    rw [hz]
    ring

/-- C5: per channel and iteration, the hop written to the output queue is the
exact elementwise sum over all resolutions of the first outhop samples of each
accumulator; each accumulator is then shifted left by outhop with the exposed
tail zero-filled; and the input queue is advanced by exactly inhop samples. -/
theorem c5_mixdown_conservation (oh ihop : ℕ) (accs : List (List ℚ))
    (outb inb : RingBuf)
    (hacc : ∀ a ∈ accs, oh ≤ a.length)
    (hsp : oh ≤ RingBuf.getWriteSpace outb)
    (hin : ihop ≤ RingBuf.getReadSpace inb) :
    ((emitStep oh ihop accs outb inb).2.1).buf = outb.buf ++ mixdownOf oh accs ∧
    (mixdownOf oh accs).length = oh ∧
    (∀ j, j < oh →
      (mixdownOf oh accs).getD j 0 = (accs.map (fun a => a.getD j 0)).sum) ∧
    (emitStep oh ihop accs outb inb).1 =
      accs.map (fun a => a.drop oh ++ List.replicate oh (0 : ℚ)) ∧
    ((emitStep oh ihop accs outb inb).2.2).buf = inb.buf.drop ihop ∧
    RingBuf.getReadSpace inb =
      RingBuf.getReadSpace ((emitStep oh ihop accs outb inb).2.2) + ihop := by
  have hlen : (mixdownOf oh accs).length = oh :=
    mixdown_go_length oh accs _ (by simp) hacc
  refine ⟨?_, hlen, ?_, ?_, rfl, ?_⟩
  · show ((RingBuf.write outb (mixdownOf oh accs)).1).buf = _
    rw [write_append outb _ (by rw [hlen]; exact hsp)]
  · intro j hj
    unfold mixdownOf
    rw [mixdown_go_getD oh j hj accs _ (by simp) hacc]
    have h0 : (List.replicate oh (0 : ℚ)).getD j 0 = 0 := by
      rw [List.getD_eq_getElem _ _ (by simpa using hj)]
      simp
    rw [h0, zero_add]
  · show accs.map (shiftAcc oh) = _
    apply List.map_congr_left
    intro a ha
    have hm : min oh a.length = oh := min_eq_left (hacc a ha)
    simp [shiftAcc, hm]
  · show RingBuf.getReadSpace inb = RingBuf.getReadSpace (RingBuf.skip inb ihop) + ihop
    simp only [RingBuf.skip, RingBuf.getReadSpace, List.length_drop] at hin ⊢
    omega

/-- C5, witness: two accumulators [1,2,3] and [10,20,30] at outhop 2 and inhop 1
mix down to [11,22]; the shifted accumulators are [3,0,0] and [30,0,0] and one
input sample is consumed. -/
theorem c5_mixdown_conservation_witness :
    ((emitStep 2 1 [[1, 2, 3], [10, 20, 30]] ⟨4, []⟩ ⟨4, [5, 6, 7]⟩).2.1).buf =
      (⟨4, []⟩ : RingBuf).buf ++ mixdownOf 2 [[1, 2, 3], [10, 20, 30]] ∧
    (mixdownOf 2 [[1, 2, 3], [10, 20, 30]]).length = 2 ∧
    (∀ j, j < 2 →
      (mixdownOf 2 [[1, 2, 3], [10, 20, 30]]).getD j 0 =
        (([[1, 2, 3], [10, 20, 30]] : List (List ℚ)).map (fun a => a.getD j 0)).sum) ∧
    (emitStep 2 1 [[1, 2, 3], [10, 20, 30]] ⟨4, []⟩ ⟨4, [5, 6, 7]⟩).1 =
      ([[1, 2, 3], [10, 20, 30]] : List (List ℚ)).map
        (fun a => a.drop 2 ++ List.replicate 2 (0 : ℚ)) ∧
    ((emitStep 2 1 [[1, 2, 3], [10, 20, 30]] ⟨4, []⟩ ⟨4, [5, 6, 7]⟩).2.2).buf =
      (⟨4, [5, 6, 7]⟩ : RingBuf).buf.drop 1 ∧
    RingBuf.getReadSpace (⟨4, [5, 6, 7]⟩ : RingBuf) =
      RingBuf.getReadSpace
        ((emitStep 2 1 [[1, 2, 3], [10, 20, 30]] ⟨4, []⟩ ⟨4, [5, 6, 7]⟩).2.2) + 1 :=
  c5_mixdown_conservation 2 1 [[1, 2, 3], [10, 20, 30]] ⟨4, []⟩ ⟨4, [5, 6, 7]⟩
    (by simp) (by simp [RingBuf.getWriteSpace]) (by simp [RingBuf.getReadSpace])

/-- Modelled from the spec: the window collaborator's apply-taper operation
("cut"): elementwise product of the window table with the source range. -/
def cutW (w src : List ℚ) : List ℚ := List.zipWith (· * ·) w src

/-- R3StretcherImpl::consume, analysis framing (lines 202-216): the longest
resolution is windowed in place with no crop, every other resolution is cut from
the centered sub-range of the long frame at offset (longest − fftSize)/2. -/
def analysisFrame (longest : ℕ) (aw : ℕ → List ℚ) (longFrame : List ℚ) (n : ℕ) :
    List ℚ :=
  if n = longest then cutW (aw n) longFrame
  else cutW (aw n) ((longFrame.drop ((longest - n) / 2)).take n)

/-- R3StretcherImpl::consume, forward transform and normalization (lines
222-231): the transform's magnitudes scaled by 1/fftSize.  The spectral
transform itself is an external collaborator, so it enters as a parameter. -/
def analysisMag (fwdMag : List ℚ → List ℚ) (fftSize : ℕ) (fr : List ℚ) : List ℚ :=
  (fwdMag fr).map (fun m => m * (1 / (fftSize : ℚ)))

/-- Elementwise value of the window cut. -/
theorem getD_cutW (w src : List ℚ) (j : ℕ) (h1 : j < w.length) (h2 : j < src.length) :
    (cutW w src).getD j 0 = w.getD j 0 * src.getD j 0 := by
  unfold cutW
  rw [List.getD_eq_getElem _ _ (by simp; omega), List.getElem_zipWith,
    List.getD_eq_getElem w 0 h1, List.getD_eq_getElem src 0 h2]

/-- C6: each non-longest resolution's frame is the centered sub-range of the
long frame starting at (longest − n)/2 with that resolution's analysis window
applied; the longest resolution is windowed directly with no crop; and after the
forward transform the magnitude is the transform output scaled by 1/fftSize. -/
theorem c6_analysis_alignment (longest n : ℕ) (aw : ℕ → List ℚ)
    (longFrame : List ℚ) (fwdMag : List ℚ → List ℚ)
    (hwlen : (aw n).length = n) (hlf : longFrame.length = longest) (hn : n ≤ longest) :
    (n ≠ longest → ∀ j, j < n →
      (analysisFrame longest aw longFrame n).getD j 0 =
        (aw n).getD j 0 * longFrame.getD ((longest - n) / 2 + j) 0) ∧
    (n = longest → ∀ j, j < n →
      (analysisFrame longest aw longFrame n).getD j 0 =
        (aw n).getD j 0 * longFrame.getD j 0) ∧
    (∀ j, (analysisMag fwdMag n (analysisFrame longest aw longFrame n)).getD j 0 =
      (fwdMag (analysisFrame longest aw longFrame n)).getD j 0 * (1 / (n : ℚ))) := by
  refine ⟨?_, ?_, ?_⟩
  · intro hne j hj
    unfold analysisFrame
    rw [if_neg hne]
    have hcl : ((longFrame.drop ((longest - n) / 2)).take n).length = n := by
      simp [hlf]
      omega
    rw [getD_cutW _ _ j (by omega) (by rw [hcl]; exact hj)]
    congr 1
    rw [List.getD_eq_getElem _ _ (by rw [hcl]; exact hj), List.getElem_take,
      List.getElem_drop, List.getD_eq_getElem longFrame 0 (by omega)]
  · intro heq j hj
    unfold analysisFrame
    rw [if_pos heq]
    rw [getD_cutW _ _ j (by omega) (by omega)]
  · intro j
    unfold analysisMag
    by_cases hj : j < (fwdMag (analysisFrame longest aw longFrame n)).length
    · rw [List.getD_eq_getElem _ _ (by simpa using hj), List.getElem_map,
        List.getD_eq_getElem _ 0 hj]
    · push_neg at hj
      rw [List.getD_eq_default _ _ (by simpa using hj), List.getD_eq_default _ _ hj]
      ring

/-- C6, witness: longest 4, resolution 2 with window [1,2] over long frame
[10,20,30,40] and the identity transform standing in for forwardPolar. -/
theorem c6_analysis_alignment_witness :
    ((2 : ℕ) ≠ 4 → ∀ j, j < 2 →
      (analysisFrame 4 (fun k => if k = 2 then [1, 2] else [1, 1, 1, 1])
          [10, 20, 30, 40] 2).getD j 0 =
        ((fun k => if k = 2 then [(1 : ℚ), 2] else [1, 1, 1, 1]) 2).getD j 0 *
          ([(10 : ℚ), 20, 30, 40]).getD ((4 - 2) / 2 + j) 0) ∧
    ((2 : ℕ) = 4 → ∀ j, j < 2 →
      (analysisFrame 4 (fun k => if k = 2 then [1, 2] else [1, 1, 1, 1])
          [10, 20, 30, 40] 2).getD j 0 =
        ((fun k => if k = 2 then [(1 : ℚ), 2] else [1, 1, 1, 1]) 2).getD j 0 *
          ([(10 : ℚ), 20, 30, 40]).getD j 0) ∧
    (∀ j, (analysisMag (fun l => l) 2
        (analysisFrame 4 (fun k => if k = 2 then [1, 2] else [1, 1, 1, 1])
          [10, 20, 30, 40] 2)).getD j 0 =
      ((fun (l : List ℚ) => l)
          (analysisFrame 4 (fun k => if k = 2 then [1, 2] else [1, 1, 1, 1])
            [10, 20, 30, 40] 2)).getD j 0 * (1 / ((2 : ℕ) : ℚ))) :=
  c6_analysis_alignment 4 2 (fun k => if k = 2 then [1, 2] else [1, 1, 1, 1])
    [10, 20, 30, 40] (fun l => l) (by norm_num) (by norm_num) (by norm_num)

/-- One guidance band (Guide output): owning resolution and frequency range
[f0, f1). -/
structure GBand where
  fftSize : ℕ
  f0 : ℚ
  f1 : ℚ
deriving DecidableEq

/-- Per-resolution shared data relevant to gating: the analysis and synthesis
window tables. -/
structure ScaleData where
  analysisWindow : List ℚ
  synthesisWindow : List ℚ

/-- R3StretcherImpl::consume, lines 297-304: the overlap integral of the
analysis and synthesis windows, the synthesis window centered in the analysis
window at offset (analysisSize − synthesisSize)/2. -/
def overlapSum (sd : ScaleData) : ℚ :=
  ((List.range sd.synthesisWindow.length).map (fun i =>
    sd.analysisWindow.getD
        (i + (sd.analysisWindow.length - sd.synthesisWindow.length) / 2) 0 *
      sd.synthesisWindow.getD i 0)).sum

/-- R3StretcherImpl::consume, line 305: the gating factor outhop / overlap. -/
def winscaleOf (oh : ℕ) (sd : ScaleData) : ℚ := (oh : ℚ) / overlapSum sd

/-- R3StretcherImpl::consume, lines 307-314: gate one band over its resolution's
magnitude bins — bin i has centre frequency i·(sampleRate/fftSize); bins inside
[f0, f1) are scaled by the gating factor, every other bin is set to zero. -/
def gateBand (sr : ℚ) (oh : ℕ) (sd : ScaleData) (b : GBand) (mag : List ℚ) :
    List ℚ :=
  (List.range (b.fftSize / 2 + 1)).map (fun (i : ℕ) =>
    if b.f0 ≤ (i : ℚ) * (sr / (b.fftSize : ℚ)) ∧
        (i : ℚ) * (sr / (b.fftSize : ℚ)) < b.f1
    then mag.getD i 0 * winscaleOf oh sd else 0)

/-- R3StretcherImpl::consume, lines 288-315: the band loop — for each band of
the channel's guidance in order, replace the magnitude spectrum of that band's
resolution by the gated spectrum.  Spectra are kept as a map from FFT size, as
in the source's scales map. -/
def gateAll (sr : ℚ) (oh : ℕ) (sdFor : ℕ → ScaleData) (bands : List GBand)
    (mags : ℕ → List ℚ) : ℕ → List ℚ :=
  bands.foldl (fun m b =>
    Function.update m b.fftSize (gateBand sr oh (sdFor b.fftSize) b (m b.fftSize)))
    mags

/-- The C1 claim as stated: after gating, each bin whose centre frequency lies
inside some band owned by its resolution is the analyzed magnitude scaled by
outhop/winscale, and every bin not covered by any band owned by its resolution
is zero — in particular a resolution owning no band has an all-zero spectrum. -/
def bandGatingClaimSpec (sr : ℚ) (oh : ℕ) (sdFor : ℕ → ScaleData)
    (bands : List GBand) (mags : ℕ → List ℚ) (sizes : List ℕ) : Prop :=
  ∀ fs ∈ sizes, ∀ i, i < (mags fs).length →
    ((∃ b ∈ bands, b.fftSize = fs ∧ b.f0 ≤ (i : ℚ) * (sr / (fs : ℚ)) ∧
        (i : ℚ) * (sr / (fs : ℚ)) < b.f1) →
      (gateAll sr oh sdFor bands mags fs).getD i 0 =
        (mags fs).getD i 0 * winscaleOf oh (sdFor fs)) ∧
    ((¬ ∃ b ∈ bands, b.fftSize = fs ∧ b.f0 ≤ (i : ℚ) * (sr / (fs : ℚ)) ∧
        (i : ℚ) * (sr / (fs : ℚ)) < b.f1) →
      (gateAll sr oh sdFor bands mags fs).getD i 0 = 0)

/-- The band loop touches a resolution's spectrum exactly through the bands that
name it, in order. -/
theorem gateAll_eq_filter_foldl (sr : ℚ) (oh : ℕ) (sdFor : ℕ → ScaleData) :
    ∀ (bands : List GBand) (mags : ℕ → List ℚ) (fs : ℕ),
    gateAll sr oh sdFor bands mags fs =
      (bands.filter (fun b => b.fftSize = fs)).foldl
        (fun m b => gateBand sr oh (sdFor fs) b m) (mags fs) := by
  intro bands
  induction bands with
  | nil => intro mags fs; rfl
  | cons b t ih =>
    intro mags fs
    have hstep : gateAll sr oh sdFor (b :: t) mags fs =
        gateAll sr oh sdFor t
          (Function.update mags b.fftSize
            (gateBand sr oh (sdFor b.fftSize) b (mags b.fftSize))) fs := rfl
    rw [hstep, ih]
    by_cases hfs : b.fftSize = fs
    · subst hfs
      rw [Function.update_same]
      rw [List.filter_cons_of_pos (by simp)]
      rw [List.foldl_cons]
    · rw [Function.update_noteq (Ne.symm hfs)]
      rw [List.filter_cons_of_neg (by simpa using hfs)]

/-- Elementwise value of a single band's gating. -/
theorem gateBand_getD (sr : ℚ) (oh : ℕ) (sd : ScaleData) (b : GBand) (mag : List ℚ)
    (i : ℕ) (hi : i < b.fftSize / 2 + 1) :
    (gateBand sr oh sd b mag).getD i 0 =
      (if b.f0 ≤ (i : ℚ) * (sr / (b.fftSize : ℚ)) ∧
          (i : ℚ) * (sr / (b.fftSize : ℚ)) < b.f1
       then mag.getD i 0 * winscaleOf oh sd else 0) := by
  unfold gateBand
  rw [List.getD_eq_getElem _ _ (by simpa using hi)]
  simp

/-- C1: counterexample — two resolutions 2 and 4, one guidance band owned by
resolution 2: the loop never touches resolution 4's spectrum, so its bin 0 stays
at the analyzed value 1 instead of the 0 the claim requires for a resolution
that owns no band this frame. -/
theorem c1_band_gating_counterexample :
    ¬ bandGatingClaimSpec 4 2 (fun _ => ⟨[1, 1, 1, 1], [1, 1, 1, 1]⟩)
      [⟨2, 0, 100⟩] (fun fs => if fs = 4 then [1, 1, 1] else [1, 1]) [2, 4] := by
  intro h
  have h4 := (h 4 (by simp) 0 (by simp)).2 ?noband
  case noband =>
    rintro ⟨b, hb, hfs, _⟩
    simp only [List.mem_singleton] at hb
    rw [hb] at hfs
    simp at hfs
  have hval : gateAll 4 2 (fun _ => ⟨[1, 1, 1, 1], [1, 1, 1, 1]⟩) [⟨2, 0, 100⟩]
      (fun fs => if fs = 4 then [1, 1, 1] else [1, 1]) 4 = [1, 1, 1] := by
    rw [gateAll_eq_filter_foldl]
    rfl
  rw [hval] at h4
  norm_num at h4

/-- C1 amended: the band loop is sequential per band — each band scales the bins
of its resolution inside [f0, f1) by outhop/winscale and zeroes all the other
bins of that resolution's spectrum, so a resolution's final spectrum is the
in-order fold of its own bands over its analyzed spectrum.  Hence a resolution
owning exactly one band matches the claimed gating (scaled inside the band, zero
outside), but a resolution owning no band this frame is left ungated and still
contributes its analyzed spectrum to the inverse transform and overlap-add. -/
theorem c1_band_gating_amended (sr : ℚ) (oh : ℕ) (sdFor : ℕ → ScaleData)
    (bands : List GBand) (mags : ℕ → List ℚ) (fs : ℕ) :
    gateAll sr oh sdFor bands mags fs =
      (bands.filter (fun b => b.fftSize = fs)).foldl
        (fun m b => gateBand sr oh (sdFor fs) b m) (mags fs) ∧
    (bands.filter (fun b => b.fftSize = fs) = [] →
      gateAll sr oh sdFor bands mags fs = mags fs) ∧
    (∀ b, bands.filter (fun b2 => b2.fftSize = fs) = [b] →
      ∀ i, i < b.fftSize / 2 + 1 →
        (gateAll sr oh sdFor bands mags fs).getD i 0 =
          (if b.f0 ≤ (i : ℚ) * (sr / (b.fftSize : ℚ)) ∧
              (i : ℚ) * (sr / (b.fftSize : ℚ)) < b.f1
           then (mags fs).getD i 0 * winscaleOf oh (sdFor fs) else 0)) := by
  refine ⟨gateAll_eq_filter_foldl sr oh sdFor bands mags fs, ?_, ?_⟩
  · intro hemp
    rw [gateAll_eq_filter_foldl, hemp, List.foldl_nil]
  · intro b hone i hi
    rw [gateAll_eq_filter_foldl, hone, List.foldl_cons, List.foldl_nil]
    exact gateBand_getD sr oh (sdFor fs) b (mags fs) i hi

/-- C1 amended, witness: with the single band owned by resolution 2, resolution
4's spectrum is left exactly as analyzed. -/
theorem c1_band_gating_amended_witness :
    gateAll 4 2 (fun _ => ⟨[1, 1, 1, 1], [1, 1, 1, 1]⟩) [⟨2, 0, 100⟩]
      (fun fs => if fs = 4 then [1, 1, 1] else [1, 1]) 4 = [(1 : ℚ), 1, 1] :=
  (c1_band_gating_amended 4 2 (fun _ => ⟨[1, 1, 1, 1], [1, 1, 1, 1]⟩) [⟨2, 0, 100⟩]
    (fun fs => if fs = 4 then [1, 1, 1] else [1, 1]) 4).2.1 (by rfl)
